import Mathlib

/-!
# Verification of the visualdag DAG integrity engine

A shallow embedding of the graph model, cycle detector, validator, edit
session and import/export layer of the visualdag repository
(src/components/DAGEditor.tsx, src/hooks/useDAGValidation.ts), together
with proofs of the specified properties.

Node and edge records mirror the React Flow objects stored in the editor
state; the id counter, the adjacency map built by the cycle detector, and
the recursive depth-first search are translated operation by operation.
-/

namespace VisualDag

/-- A React Flow node as stored in the editor state: string id, node type,
2D position (modelled with integer coordinates), the `data` payload
(`label` and a copy of the id), and the UI selection flag. -/
structure FlowNode where
  id : String
  type : String
  x : Int
  y : Int
  label : String
  dataId : String
  selected : Bool
deriving DecidableEq

/-- A React Flow edge: string id, source node id, target node id, and the
UI selection flag. -/
structure FlowEdge where
  id : String
  source : String
  target : String
  selected : Bool
deriving DecidableEq

/-- The list of node ids of the graph, in display order. -/
def nodeIds (nodes : List FlowNode) : List String := nodes.map (fun n => n.id)

/-- The (source, target) pairs of the edge collection, in order. -/
def edgePairs (edges : List FlowEdge) : List (String × String) :=
  edges.map (fun e => (e.source, e.target))

/-- Every edge references node ids present in the node collection. -/
def WellFormed (nodes : List FlowNode) (edges : List FlowEdge) : Prop :=
  ∀ e ∈ edges, e.source ∈ nodeIds nodes ∧ e.target ∈ nodeIds nodes

instance (nodes : List FlowNode) (edges : List FlowEdge) :
    Decidable (WellFormed nodes edges) := by
  unfold WellFormed; infer_instance

/-! ## The adjacency map

`DAGEditor.tsx` and `useDAGValidation.ts` build a `Map<string, string[]>`:
every node id is first bound to `[]`, then for every edge the edge's target
is pushed onto the entry of the edge's source (`get(...) || []` defaulting
to the empty list).  We model the map as an association list with
first-match lookup. -/

/-- `Map.get(k) || []`: first matching entry, defaulting to `[]`. -/
def alGet (m : List (String × List String)) (k : String) : List String :=
  match m with
  | [] => []
  | (k', v) :: rest => if k' = k then v else alGet rest k

/-- `Map.set(k, v)`: replace the first entry for `k`, or append one. -/
def alSet (m : List (String × List String)) (k : String) (v : List String) :
    List (String × List String) :=
  match m with
  | [] => [(k, v)]
  | (k', v') :: rest => if k' = k then (k, v) :: rest else (k', v') :: alSet rest k v

/-- `nodes.forEach(node => adjacencyList.set(node.id, []))`. -/
def initAdj (nodes : List FlowNode) : List (String × List String) :=
  nodes.foldl (fun m n => alSet m n.id []) []

/-- `edges.forEach(...)`: push each edge's target onto its source's entry. -/
def buildAdj (nodes : List FlowNode) (eps : List (String × String)) :
    List (String × List String) :=
  eps.foldl (fun m p => alSet m p.1 (alGet m p.1 ++ [p.2])) (initAdj nodes)

/-- The targets of the edges leaving `x`, in edge order: the value the
adjacency map construction produces for key `x`. -/
def adjFrom (eps : List (String × String)) (x : String) : List String :=
  (eps.filter (fun p => p.1 == x)).map (fun p => p.2)

theorem alGet_alSet (m : List (String × List String)) (k k' : String)
    (v : List String) :
    alGet (alSet m k v) k' = if k = k' then v else alGet m k' := by
  induction m with
  | nil => simp [alGet, alSet]
  | cons hd rest ih =>
    obtain ⟨a, b⟩ := hd
    by_cases hak : a = k
    · subst hak
      by_cases hkk : a = k'
      · simp [alSet, alGet, hkk]
      · simp [alSet, alGet, hkk]
    · by_cases hak' : a = k'
      · subst hak'
        have hk : ¬ k = a := fun h => hak h.symm
        simp [alSet, alGet, hak, hk]
      · simp [alSet, alGet, hak, hak', ih]

theorem alGet_initAdj_aux (ns : List FlowNode) :
    ∀ m, (∀ k, alGet m k = []) →
      ∀ x, alGet (ns.foldl (fun m n => alSet m n.id []) m) x = [] := by
  induction ns with
  | nil => intro m hm x; simpa using hm x
  | cons n ns ih =>
    intro m hm x
    simp only [List.foldl_cons]
    exact ih _ (fun k => by rw [alGet_alSet]; split <;> simp [hm]) x

theorem alGet_initAdj (nodes : List FlowNode) (x : String) :
    alGet (initAdj nodes) x = [] :=
  alGet_initAdj_aux nodes [] (fun _ => rfl) x

theorem alGet_foldl_adj (eps : List (String × String)) :
    ∀ m x, alGet
        (eps.foldl (fun m p => alSet m p.1 (alGet m p.1 ++ [p.2])) m) x =
      alGet m x ++ adjFrom eps x := by
  induction eps with
  | nil => intro m x; simp [adjFrom]
  | cons p eps ih =>
    intro m x
    simp only [List.foldl_cons]
    rw [ih]
    by_cases hx : p.1 = x
    · simp [adjFrom, alGet_alSet, hx]
    · have : ¬ (p.1 == x) = true := by simpa using hx
      simp [adjFrom, alGet_alSet, hx, this]

/-- The adjacency map built by the source computes exactly the list of
targets of edges leaving `x`. -/
theorem alGet_buildAdj (nodes : List FlowNode) (eps : List (String × String))
    (x : String) : alGet (buildAdj nodes eps) x = adjFrom eps x := by
  unfold buildAdj
  rw [alGet_foldl_adj, alGet_initAdj]
  rfl

theorem mem_adjFrom {eps : List (String × String)} {a b : String} :
    b ∈ adjFrom eps a ↔ (a, b) ∈ eps := by
  unfold adjFrom
  simp only [List.mem_map, List.mem_filter, beq_iff_eq]
  constructor
  · rintro ⟨⟨p1, p2⟩, ⟨hmem, h1⟩, h2⟩
    simp only at h1 h2
    subst h1; subst h2; exact hmem
  · intro h
    exact ⟨(a, b), ⟨h, rfl⟩, rfl⟩

/-! ## The depth-first search of the cycle detector

The source recursion:

```
const dfs = (nodeId) => {
  visited.add(nodeId); recStack.add(nodeId);
  for (const neighbor of adjacencyList.get(nodeId) || []) {
    if (!visited.has(neighbor)) { if (dfs(neighbor)) return true; }
    else if (recStack.has(neighbor)) return true;
  }
  recStack.delete(nodeId);
  return false;
};
for (const node of nodes) if (!visited.has(node.id) && dfs(node.id)) return true;
return false;
```

`visited` is threaded through; `recStack` is the current call path, so the
pop-on-exit discipline is captured by passing it downwards unchanged.  The
recursion is bounded by a fuel parameter; `dfsFuel` below is large enough
that the verdict matches the unbounded source recursion — the exact
characterization `hasCycleAux_iff` proves completeness despite the bound.
The neighbor loop takes the recursive `dfs` call as its continuation,
which keeps both definitions structurally recursive. -/

/-- The `for (const neighbor of ...)` loop inside `dfs`; `dfsRec` is the
recursive `dfs` call. -/
def dfsNbrs (dfsRec : String → List String → List String → Bool × List String) :
    List String → List String → List String → Bool × List String
  | [], vis, _ => (false, vis)
  | m :: rest, vis, stk =>
    if m ∈ vis then
      if m ∈ stk then (true, vis) else dfsNbrs dfsRec rest vis stk
    else
      let r := dfsRec m vis stk
      if r.1 then (true, r.2) else dfsNbrs dfsRec rest r.2 stk

/-- One `dfs(nodeId)` call: mark visited, push on the recursion stack, and
scan the neighbor list. -/
def dfsA (adj : String → List String) : Nat → String → List String → List String →
    Bool × List String
  | 0, _, vis, _ => (false, vis)
  | Nat.succ g, n, vis, stk => dfsNbrs (dfsA adj g) (adj n) (n :: vis) (n :: stk)

/-- The outer loop over all nodes, skipping already visited ones. -/
def hasCycleOuter (adj : String → List String) (fuel : Nat) :
    List String → List String → Bool
  | [], _ => false
  | n :: ns, vis =>
    if n ∈ vis then hasCycleOuter adj fuel ns vis
    else
      let r := dfsA adj fuel n vis []
      if r.1 then true else hasCycleOuter adj fuel ns r.2

/-- The fuel bound: one unit per node, per edge target, and one to
spare — more than the number of ids the search can ever visit. -/
def dfsFuel (nodes : List FlowNode) (eps : List (String × String)) : Nat :=
  nodes.length + eps.length + 1

/-- The shared DFS cycle check over the node list and a list of
(source, target) pairs: true iff the detector reports a cycle. -/
def hasCycleAux (nodes : List FlowNode) (eps : List (String × String)) : Bool :=
  hasCycleOuter (fun x => alGet (buildAdj nodes eps) x) (dfsFuel nodes eps)
    (nodeIds nodes) []

/-- `hasCycle()` of `useDAGValidation`: whole-graph cycle detection over
the actual edges. -/
def hasCycle (nodes : List FlowNode) (edges : List FlowEdge) : Bool :=
  hasCycleAux nodes (edgePairs edges)

/-- `wouldCreateCycle(sourceId, targetId)` of `DAGEditor.tsx`: the same
DFS over the adjacency map with the hypothetical edge pushed onto the
source's entry — i.e. over `edges ++ [(sourceId, targetId)]`. -/
def wouldCreateCycle (nodes : List FlowNode) (edges : List FlowEdge)
    (sourceId targetId : String) : Bool :=
  hasCycleAux nodes (edgePairs edges ++ [(sourceId, targetId)])

/-- `isValidConnection`: reject self-loops, else reject cycle-creating
edges. -/
def isValidConnection (nodes : List FlowNode) (edges : List FlowEdge)
    (source target : String) : Bool :=
  if source = target then false
  else ! wouldCreateCycle nodes edges source target

/-- The edge record React Flow's `addEdge` appends for an accepted
connection (library call, modelled from the spec's "appends the edge"). -/
def connectionEdge (u v : String) : FlowEdge :=
  ⟨"reactflow__edge-" ++ u ++ "-" ++ v, u, v, false⟩

/-- `onConnect`: append the edge when `isValidConnection` holds, otherwise
leave the edge collection unchanged (and signal the rejection).  Returns
the new edge collection and whether the connect succeeded. -/
def onConnect (nodes : List FlowNode) (edges : List FlowEdge) (u v : String) :
    List FlowEdge × Bool :=
  if isValidConnection nodes edges u v then (edges ++ [connectionEdge u v], true)
  else (edges, false)

/-! ## Specification-side graph relations -/

/-- One directed step of the adjacency function: `b` is a listed successor
of `a`. -/
def StepA (adj : String → List String) (a b : String) : Prop := b ∈ adj a

/-- One directed edge step of a (source, target) pair list. -/
def EdgeStepP (eps : List (String × String)) (a b : String) : Prop := (a, b) ∈ eps

/-- A directed cycle is reachable from `x`: some node `c` reachable from
`x` lies on a non-empty directed cycle. -/
def CycReachA (adj : String → List String) (x : String) : Prop :=
  ∃ c, Relation.ReflTransGen (StepA adj) x c ∧ Relation.TransGen (StepA adj) c c

instance (eps : List (String × String)) (a b : String) :
    Decidable (EdgeStepP eps a b) := by
  unfold EdgeStepP; infer_instance

/-- A directed cycle is reachable from `x` in the pair-list graph. -/
def CycReachP (eps : List (String × String)) (x : String) : Prop :=
  ∃ c, Relation.ReflTransGen (EdgeStepP eps) x c ∧
    Relation.TransGen (EdgeStepP eps) c c

theorem stepA_buildAdj (nodes : List FlowNode) (eps : List (String × String)) :
    StepA (fun x => alGet (buildAdj nodes eps) x) = EdgeStepP eps := by
  funext a b
  rw [eq_iff_iff]
  unfold StepA EdgeStepP
  show b ∈ alGet (buildAdj nodes eps) a ↔ (a, b) ∈ eps
  rw [alGet_buildAdj]
  exact mem_adjFrom

/-- If a cycle is reachable from `n`, it is reachable through one of `n`'s
successors. -/
theorem cycReach_head {adj : String → List String} {n : String}
    (h : CycReachA adj n) : ∃ m, StepA adj n m ∧ CycReachA adj m := by
  obtain ⟨c, hrtg, htg⟩ := h
  rcases hrtg.cases_head with heq | ⟨m, hstep, hrest⟩
  · subst heq
    obtain ⟨m, hstep, hrtg'⟩ := Relation.TransGen.head'_iff.1 htg
    exact ⟨m, hstep, n, hrtg', htg⟩
  · exact ⟨m, hstep, c, hrest, htg⟩

/-! ## Soundness of the DFS: a reported cycle is a real cycle

The recursion stack, read top to bottom, is a chain in which every entry
is a listed successor of the entry below it; a back-edge into the stack
therefore closes a genuine directed cycle, reachable from the stack
bottom (the outer-loop start node). -/

/-- Every stack entry is reachable from the stack bottom. -/
theorem chain_last_rtg (adj : String → List String) :
    ∀ (l : List String) (r : String), l.getLast? = some r →
      List.Chain' (fun a b => StepA adj b a) l →
      ∀ x ∈ l, Relation.ReflTransGen (StepA adj) r x := by
  intro l
  induction l with
  | nil => intro r hr; simp at hr
  | cons a t ih =>
    intro r hr hchain x hx
    match t with
    | [] =>
      simp at hr hx
      subst hr; subst hx
      exact Relation.ReflTransGen.refl
    | b :: t' =>
      rw [List.getLast?_cons_cons] at hr
      obtain ⟨hba, hchain'⟩ := List.chain'_cons.1 hchain
      rcases List.mem_cons.1 hx with hxa | hxt
      · subst hxa
        exact (ih r hr hchain' b (List.mem_cons_self _ _)).tail hba
      · exact ih r hr hchain' x hxt

/-- Every stack entry reaches the stack top. -/
theorem chain_head_rtg (adj : String → List String) :
    ∀ (l : List String) (a : String), List.Chain' (fun a b => StepA adj b a) (a :: l) →
      ∀ x ∈ a :: l, Relation.ReflTransGen (StepA adj) x a := by
  intro l
  induction l with
  | nil =>
    intro a _ x hx
    simp at hx
    subst hx
    exact Relation.ReflTransGen.refl
  | cons b t ih =>
    intro a hchain x hx
    obtain ⟨hba, hchain'⟩ := List.chain'_cons.1 hchain
    rcases List.mem_cons.1 hx with hxa | hxt
    · subst hxa
      exact Relation.ReflTransGen.refl
    · exact (ih b hchain' x hxt).tail hba

/-- Soundness of the neighbor loop, given soundness of its recursive
continuation. -/
theorem dfsNbrs_sound_of (adj : String → List String)
    (dfsRec : String → List String → List String → Bool × List String)
    (hA : ∀ n vis stk r, (n :: stk).getLast? = some r →
      List.Chain' (fun a b => StepA adj b a) (n :: stk) →
      (dfsRec n vis stk).1 = true → CycReachA adj r) :
    ∀ ms vis t stk₀ r, (t :: stk₀).getLast? = some r →
      List.Chain' (fun a b => StepA adj b a) (t :: stk₀) →
      (∀ m ∈ ms, StepA adj t m) →
      (dfsNbrs dfsRec ms vis (t :: stk₀)).1 = true → CycReachA adj r := by
  intro ms
  induction ms with
  | nil => intro vis t stk₀ r _ _ _ h; simp [dfsNbrs] at h
  | cons m rest ih =>
    intro vis t stk₀ r hlast hchain hms h
    rw [dfsNbrs] at h
    by_cases hv : m ∈ vis
    · simp only [hv, if_true] at h
      by_cases hs : m ∈ t :: stk₀
      · -- back-edge into the recursion stack: a real cycle through m
        refine ⟨m, chain_last_rtg adj (t :: stk₀) r hlast hchain m hs, ?_⟩
        exact Relation.TransGen.tail'
          (chain_head_rtg adj stk₀ t hchain m hs) (hms m (List.mem_cons_self _ _))
      · simp only [hs, if_false] at h
        exact ih vis t stk₀ r hlast hchain (fun x hx => hms x (List.mem_cons_of_mem _ hx)) h
    · simp only [hv, if_false] at h
      by_cases hr1 : (dfsRec m vis (t :: stk₀)).1 = true
      · refine hA m vis (t :: stk₀) r ?_ ?_ hr1
        · rw [List.getLast?_cons_cons]; exact hlast
        · exact List.chain'_cons.2 ⟨hms m (List.mem_cons_self _ _), hchain⟩
      · simp only [Bool.not_eq_true] at hr1
        simp only [hr1, if_false] at h
        exact ih _ t stk₀ r hlast hchain (fun x hx => hms x (List.mem_cons_of_mem _ hx)) h

/-- Soundness of `dfs`: if it reports a cycle, a directed cycle is
reachable from the bottom of the recursion stack. -/
theorem dfsA_sound (adj : String → List String) :
    ∀ fuel n vis stk r, (n :: stk).getLast? = some r →
      List.Chain' (fun a b => StepA adj b a) (n :: stk) →
      (dfsA adj fuel n vis stk).1 = true → CycReachA adj r := by
  intro fuel
  induction fuel with
  | zero => intro n vis stk r _ _ h; simp [dfsA] at h
  | succ g ihg =>
    intro n vis stk r hlast hchain h
    rw [dfsA] at h
    exact dfsNbrs_sound_of adj (dfsA adj g) ihg (adj n) (n :: vis) n stk r hlast hchain
      (fun m hm => hm) h

/-- Soundness of the outer loop: a reported cycle is reachable from one of
the start nodes. -/
theorem hasCycleOuter_sound (adj : String → List String) (fuel : Nat) :
    ∀ ns vis, hasCycleOuter adj fuel ns vis = true →
      ∃ n ∈ ns, CycReachA adj n := by
  intro ns
  induction ns with
  | nil => intro vis h; simp [hasCycleOuter] at h
  | cons n rest ih =>
    intro vis h
    rw [hasCycleOuter] at h
    by_cases hv : n ∈ vis
    · simp only [hv, if_true] at h
      obtain ⟨n', hn', hc⟩ := ih vis h
      exact ⟨n', List.mem_cons_of_mem _ hn', hc⟩
    · simp only [hv, if_false] at h
      by_cases hr1 : (dfsA adj fuel n vis []).1 = true
      · refine ⟨n, List.mem_cons_self _ _, ?_⟩
        exact dfsA_sound adj fuel n vis [] n rfl (List.chain'_singleton n) hr1
      · simp only [Bool.not_eq_true] at hr1
        simp only [hr1, if_false] at h
        obtain ⟨n', hn', hc⟩ := ih _ h
        exact ⟨n', List.mem_cons_of_mem _ hn', hc⟩

/-! ## Completeness of the DFS: a false result means no reachable cycle

Invariant: every visited node that is off the recursion stack is settled —
no directed cycle is reachable from it.  The fuel hypothesis
`Uf.card < fuel + vis.toFinset.card` (for a universe `Uf` closed under
the adjacency function) guarantees the fuel never runs out. -/

/-- Completeness of the neighbor loop, given completeness of its recursive
continuation. -/
theorem dfsNbrs_complete_of (adj : String → List String) (Uf : Finset String)
    (g : Nat)
    (dfsRec : String → List String → List String → Bool × List String)
    (hA : ∀ n vis stk, n ∉ vis → (∀ s ∈ stk, s ∈ vis) →
      (∀ v ∈ vis, v ∉ stk → ¬ CycReachA adj v) → (∀ v ∈ vis, v ∈ Uf) →
      n ∈ Uf → Uf.card < g + vis.toFinset.card →
      (dfsRec n vis stk).1 = false →
      (∀ v ∈ vis, v ∈ (dfsRec n vis stk).2) ∧
      n ∈ (dfsRec n vis stk).2 ∧
      (∀ v ∈ (dfsRec n vis stk).2, v ∈ Uf) ∧
      (∀ v ∈ (dfsRec n vis stk).2, v ∉ stk → ¬ CycReachA adj v)) :
    ∀ ms vis stk, (∀ s ∈ stk, s ∈ vis) →
      (∀ v ∈ vis, v ∉ stk → ¬ CycReachA adj v) → (∀ v ∈ vis, v ∈ Uf) →
      (∀ m ∈ ms, m ∈ Uf) → Uf.card < g + vis.toFinset.card →
      (dfsNbrs dfsRec ms vis stk).1 = false →
      (∀ v ∈ vis, v ∈ (dfsNbrs dfsRec ms vis stk).2) ∧
      (∀ v ∈ (dfsNbrs dfsRec ms vis stk).2, v ∈ Uf) ∧
      (∀ v ∈ (dfsNbrs dfsRec ms vis stk).2, v ∉ stk → ¬ CycReachA adj v) ∧
      (∀ m ∈ ms, m ∈ (dfsNbrs dfsRec ms vis stk).2 ∧ ¬ CycReachA adj m) := by
  intro ms
  induction ms with
  | nil =>
    intro vis stk _ hinv hvisU _ _ _
    have heq : dfsNbrs dfsRec [] vis stk = (false, vis) := by rw [dfsNbrs]
    rw [heq]
    exact ⟨fun v hv => hv, hvisU, hinv, by simp⟩
  | cons m rest ih =>
    intro vis stk hstk hinv hvisU hmsU hfuel hres
    by_cases hv : m ∈ vis
    · by_cases hs : m ∈ stk
      · exfalso; rw [dfsNbrs] at hres; simp [hv, hs] at hres
      · have heq : dfsNbrs dfsRec (m :: rest) vis stk = dfsNbrs dfsRec rest vis stk := by
          rw [dfsNbrs]; simp [hv, hs]
        rw [heq] at hres ⊢
        obtain ⟨h1, h2, h3, h4⟩ := ih vis stk hstk hinv hvisU
          (fun x hx => hmsU x (List.mem_cons_of_mem _ hx)) hfuel hres
        refine ⟨h1, h2, h3, fun m' hm' => ?_⟩
        rcases List.mem_cons.1 hm' with hm'm | hm'rest
        · subst hm'm
          exact ⟨h1 m' hv, hinv m' hv hs⟩
        · exact h4 m' hm'rest
    · by_cases hr1 : (dfsRec m vis stk).1 = true
      · exfalso; rw [dfsNbrs] at hres; simp [hv, hr1] at hres
      · have hr1' : (dfsRec m vis stk).1 = false := by
          simpa using hr1
        have heq : dfsNbrs dfsRec (m :: rest) vis stk =
            dfsNbrs dfsRec rest (dfsRec m vis stk).2 stk := by
          rw [dfsNbrs]; simp [hv, hr1']
        rw [heq] at hres ⊢
        have hmstk : m ∉ stk := fun hc => hv (hstk m hc)
        obtain ⟨hsub, hmem, hU, hinv'⟩ := hA m vis stk hv hstk hinv hvisU
          (hmsU m (List.mem_cons_self _ _)) hfuel hr1'
        have hcard : vis.toFinset.card ≤ (dfsRec m vis stk).2.toFinset.card := by
          refine Finset.card_le_card ?_
          rw [Finset.subset_iff]
          intro x hx
          rw [List.mem_toFinset] at hx ⊢
          exact hsub x hx
        obtain ⟨h1, h2, h3, h4⟩ := ih (dfsRec m vis stk).2 stk
          (fun s hs => hsub s (hstk s hs)) hinv' hU
          (fun x hx => hmsU x (List.mem_cons_of_mem _ hx)) (by omega) hres
        refine ⟨fun v hv' => h1 v (hsub v hv'), h2, h3, fun m' hm' => ?_⟩
        rcases List.mem_cons.1 hm' with hm'm | hm'rest
        · subst hm'm
          exact ⟨h1 m' hmem, hinv' m' hmem hmstk⟩
        · exact h4 m' hm'rest

/-- Completeness of `dfs`: a false result settles every node it visited. -/
theorem dfsA_complete (adj : String → List String) (Uf : Finset String)
    (closed : ∀ x y, y ∈ adj x → y ∈ Uf) :
    ∀ fuel n vis stk, n ∉ vis → (∀ s ∈ stk, s ∈ vis) →
      (∀ v ∈ vis, v ∉ stk → ¬ CycReachA adj v) → (∀ v ∈ vis, v ∈ Uf) →
      n ∈ Uf → Uf.card < fuel + vis.toFinset.card →
      (dfsA adj fuel n vis stk).1 = false →
      (∀ v ∈ vis, v ∈ (dfsA adj fuel n vis stk).2) ∧
      n ∈ (dfsA adj fuel n vis stk).2 ∧
      (∀ v ∈ (dfsA adj fuel n vis stk).2, v ∈ Uf) ∧
      (∀ v ∈ (dfsA adj fuel n vis stk).2, v ∉ stk → ¬ CycReachA adj v) := by
  intro fuel
  induction fuel with
  | zero =>
    intro n vis stk hnv _ _ hvisU hnU hfuel _
    exfalso
    have hsubU : insert n vis.toFinset ⊆ Uf := by
      rw [Finset.subset_iff]
      intro x hx
      rcases Finset.mem_insert.1 hx with hxn | hxv
      · subst hxn; exact hnU
      · exact hvisU x (List.mem_toFinset.1 hxv)
    have h1 : vis.toFinset.card + 1 ≤ Uf.card := by
      have := Finset.card_le_card hsubU
      rwa [Finset.card_insert_of_not_mem (fun hc => hnv (List.mem_toFinset.1 hc))] at this
    omega
  | succ g ih =>
    intro n vis stk hnv hstk hinv hvisU hnU hfuel hres
    have heq : dfsA adj (g + 1) n vis stk =
        dfsNbrs (dfsA adj g) (adj n) (n :: vis) (n :: stk) := by
      rw [dfsA]
    rw [heq] at hres ⊢
    have hcard : (n :: vis).toFinset.card = vis.toFinset.card + 1 := by
      rw [List.toFinset_cons,
        Finset.card_insert_of_not_mem (fun hc => hnv (List.mem_toFinset.1 hc))]
    obtain ⟨h1, h2, h3, h4⟩ := dfsNbrs_complete_of adj Uf g (dfsA adj g) ih
      (adj n) (n :: vis) (n :: stk)
      (fun s hs => by
        rcases List.mem_cons.1 hs with h | h
        · subst h; exact List.mem_cons_self _ _
        · exact List.mem_cons_of_mem _ (hstk s h))
      (fun v hv hvstk => by
        rcases List.mem_cons.1 hv with h | h
        · exact absurd (h ▸ List.mem_cons_self n stk) hvstk
        · exact hinv v h (fun hc => hvstk (List.mem_cons_of_mem _ hc)))
      (fun v hv => by
        rcases List.mem_cons.1 hv with h | h
        · subst h; exact hnU
        · exact hvisU v h)
      (closed n) (by omega) hres
    have hnoCyc : ¬ CycReachA adj n := by
      intro hcyc
      obtain ⟨m, hstep, hcm⟩ := cycReach_head hcyc
      exact (h4 m hstep).2 hcm
    refine ⟨fun v hv => h1 v (List.mem_cons_of_mem _ hv), h1 n (List.mem_cons_self _ _),
      h2, fun v hv hvstk => ?_⟩
    by_cases hvn : v = n
    · subst hvn; exact hnoCyc
    · exact h3 v hv (fun hc => by
        rcases List.mem_cons.1 hc with h | h
        · exact hvn h
        · exact hvstk h)

/-- Completeness of the outer loop: a false result settles every start
node. -/
theorem hasCycleOuter_complete (adj : String → List String) (Uf : Finset String)
    (closed : ∀ x y, y ∈ adj x → y ∈ Uf) (fuel : Nat) :
    ∀ ns vis, (∀ v ∈ vis, ¬ CycReachA adj v) → (∀ v ∈ vis, v ∈ Uf) →
      (∀ n ∈ ns, n ∈ Uf) → Uf.card < fuel + vis.toFinset.card →
      hasCycleOuter adj fuel ns vis = false → ∀ n ∈ ns, ¬ CycReachA adj n := by
  intro ns
  induction ns with
  | nil => intro vis _ _ _ _ _ n hn; simp at hn
  | cons n rest ih =>
    intro vis hinv hvisU hnsU hfuel hres n' hn'
    rw [hasCycleOuter] at hres
    by_cases hv : n ∈ vis
    · simp only [hv, if_true] at hres
      rcases List.mem_cons.1 hn' with h | h
      · subst h; exact hinv n' hv
      · exact ih vis hinv hvisU (fun x hx => hnsU x (List.mem_cons_of_mem _ hx))
          hfuel hres n' h
    · simp only [hv, if_false] at hres
      by_cases hr1 : (dfsA adj fuel n vis []).1 = true
      · simp [hr1] at hres
      · have hr1' : (dfsA adj fuel n vis []).1 = false := by simpa using hr1
        simp only [hr1', if_false] at hres
        obtain ⟨hsub, hmem, hU, hinv'⟩ := dfsA_complete adj Uf closed fuel n vis []
          hv (by simp) (fun v hv _ => hinv v hv) hvisU
          (hnsU n (List.mem_cons_self _ _)) hfuel hr1'
        have hinv₂ : ∀ v ∈ (dfsA adj fuel n vis []).2, ¬ CycReachA adj v :=
          fun v hv => hinv' v hv (by simp)
        have hcard : vis.toFinset.card ≤ (dfsA adj fuel n vis []).2.toFinset.card := by
          refine Finset.card_le_card ?_
          rw [Finset.subset_iff]
          intro x hx
          rw [List.mem_toFinset] at hx ⊢
          exact hsub x hx
        rcases List.mem_cons.1 hn' with h | h
        · subst h; exact hinv₂ n' hmem
        · exact ih (dfsA adj fuel n vis []).2 hinv₂ hU
            (fun x hx => hnsU x (List.mem_cons_of_mem _ hx)) (by omega) hres n' h

/-- The exact behavior of the shared DFS cycle check: it reports a cycle
iff a directed cycle is reachable from one of the nodes in the node
collection (cycles lying entirely outside the node collection are not
found — the outer loop only starts from listed nodes). -/
theorem hasCycleAux_iff (nodes : List FlowNode) (eps : List (String × String)) :
    hasCycleAux nodes eps = true ↔ ∃ n ∈ nodeIds nodes, CycReachP eps n := by
  have hrel := stepA_buildAdj nodes eps
  have hcyc : ∀ x, CycReachA (fun x => alGet (buildAdj nodes eps) x) x ↔ CycReachP eps x := by
    intro x; unfold CycReachA CycReachP; rw [hrel]
  constructor
  · intro h
    obtain ⟨n, hn, hc⟩ := hasCycleOuter_sound _ _ _ _ h
    exact ⟨n, hn, (hcyc n).1 hc⟩
  · rintro ⟨n, hn, hc⟩
    by_contra hfalse
    have hres : hasCycleAux nodes eps = false := by simpa using hfalse
    have hclosed : ∀ x y, y ∈ alGet (buildAdj nodes eps) x →
        y ∈ (nodeIds nodes ++ eps.map Prod.snd).toFinset := by
      intro x y hy
      rw [alGet_buildAdj] at hy
      have hp : (x, y) ∈ eps := mem_adjFrom.1 hy
      rw [List.mem_toFinset]
      exact List.mem_append_right _ (List.mem_map.2 ⟨(x, y), hp, rfl⟩)
    have hUcard : (nodeIds nodes ++ eps.map Prod.snd).toFinset.card <
        dfsFuel nodes eps + (([] : List String).toFinset.card) := by
      have h1 := List.toFinset_card_le (nodeIds nodes ++ eps.map Prod.snd)
      have h2 : (nodeIds nodes ++ eps.map Prod.snd).length =
          nodes.length + eps.length := by
        simp [nodeIds]
      unfold dfsFuel
      simp only [List.toFinset_nil, Finset.card_empty]
      omega
    have hall := hasCycleOuter_complete (fun x => alGet (buildAdj nodes eps) x)
      (nodeIds nodes ++ eps.map Prod.snd).toFinset hclosed (dfsFuel nodes eps)
      (nodeIds nodes) [] (by simp) (by simp)
      (fun x hx => List.mem_toFinset.2 (List.mem_append_left _ hx)) hUcard hres
    exact hall n hn ((hcyc n).2 hc)

/-- On a well-formed graph, possibly extended by extra edges between
present nodes, the DFS check is exactly directed-cycle existence: every
cycle touches an edge source, and well-formedness puts edge sources in the
node collection, from which the outer loop reaches the cycle. -/
theorem hasCycleAux_iff_wf (nodes : List FlowNode) (edges : List FlowEdge)
    (extra : List (String × String)) (wf : WellFormed nodes edges)
    (hextra : ∀ p ∈ extra, p.1 ∈ nodeIds nodes ∧ p.2 ∈ nodeIds nodes) :
    hasCycleAux nodes (edgePairs edges ++ extra) = true ↔
      ∃ c, Relation.TransGen (EdgeStepP (edgePairs edges ++ extra)) c c := by
  rw [hasCycleAux_iff]
  constructor
  · rintro ⟨n, hn, c, hrtg, htg⟩
    exact ⟨c, htg⟩
  · rintro ⟨c, htg⟩
    refine ⟨c, ?_, c, Relation.ReflTransGen.refl, htg⟩
    obtain ⟨m, hstep, _⟩ := Relation.TransGen.head'_iff.1 htg
    unfold EdgeStepP at hstep
    rcases List.mem_append.1 hstep with h | h
    · obtain ⟨e, he, hpe⟩ := List.mem_map.1 h
      have h1 : e.source = c := congrArg Prod.fst hpe
      exact h1 ▸ (wf e he).1
    · exact (hextra _ h).1

/-- Specialization to the actual edges: whole-graph cycle detection on a
well-formed graph is directed-cycle existence. -/
theorem hasCycle_iff_wf (nodes : List FlowNode) (edges : List FlowEdge)
    (wf : WellFormed nodes edges) :
    hasCycle nodes edges = true ↔
      ∃ c, Relation.TransGen (EdgeStepP (edgePairs edges)) c c := by
  have h := hasCycleAux_iff_wf nodes edges [] wf (by simp)
  unfold hasCycle
  simpa using h

/-! ## Demonstration graphs for the specified scenarios -/

def demoNode (i : String) : FlowNode := ⟨i, "custom", 0, 0, i, i, false⟩

def demoEdge (i s t : String) : FlowEdge := ⟨i, s, t, false⟩

/-- Scenario graph: nodes {1,2,3}, edges {1→2, 2→3}. -/
def chainNodes : List FlowNode := [demoNode "1", demoNode "2", demoNode "3"]

def chainEdges : List FlowEdge := [demoEdge "e1" "1" "2", demoEdge "e2" "2" "3"]

/-- Scenario graph: nodes {1,2}, edges {1→2, 2→1}. -/
def twoCycleNodes : List FlowNode := [demoNode "1", demoNode "2"]

def twoCycleEdges : List FlowEdge := [demoEdge "e1" "1" "2", demoEdge "e2" "2" "1"]

/-- Claim C1: for distinct node ids of a well-formed graph, `connect`
succeeds — appending the edge — iff the graph extended by the proposed
edge has no directed cycle; a rejected connect leaves the edges
unchanged. -/
theorem connect_appends_iff_acyclic (nodes : List FlowNode) (edges : List FlowEdge)
    (u v : String) (wf : WellFormed nodes edges) (hu : u ∈ nodeIds nodes)
    (hv : v ∈ nodeIds nodes) (huv : u ≠ v) :
    ((onConnect nodes edges u v).2 = true ↔
      ¬ ∃ c, Relation.TransGen (EdgeStepP (edgePairs edges ++ [(u, v)])) c c) ∧
    ((onConnect nodes edges u v).2 = true →
      (onConnect nodes edges u v).1 = edges ++ [connectionEdge u v]) ∧
    ((onConnect nodes edges u v).2 = false →
      (onConnect nodes edges u v).1 = edges) := by
  have hextra : ∀ p ∈ [(u, v)], p.1 ∈ nodeIds nodes ∧ p.2 ∈ nodeIds nodes := by
    intro p hp
    rw [List.mem_singleton] at hp
    subst hp
    exact ⟨hu, hv⟩
  have hiff := hasCycleAux_iff_wf nodes edges [(u, v)] wf hextra
  have hval : isValidConnection nodes edges u v =
      ! hasCycleAux nodes (edgePairs edges ++ [(u, v)]) := by
    unfold isValidConnection wouldCreateCycle
    rw [if_neg huv]
  refine ⟨⟨fun hsucc hex => ?_, fun hnex => ?_⟩, fun hsucc => ?_, fun hfail => ?_⟩
  · have hcb : hasCycleAux nodes (edgePairs edges ++ [(u, v)]) = true := hiff.2 hex
    unfold onConnect at hsucc
    rw [hval, hcb] at hsucc
    simp at hsucc
  · have hcb : hasCycleAux nodes (edgePairs edges ++ [(u, v)]) = false := by
      cases hcb : hasCycleAux nodes (edgePairs edges ++ [(u, v)]) with
      | false => rfl
      | true => exact absurd (hiff.1 hcb) hnex
    unfold onConnect
    rw [hval, hcb]
    simp
  · unfold onConnect at hsucc ⊢
    rw [hval] at hsucc ⊢
    cases hcb : hasCycleAux nodes (edgePairs edges ++ [(u, v)]) with
    | false => simp
    | true => rw [hcb] at hsucc; simp at hsucc
  · unfold onConnect at hfail ⊢
    rw [hval] at hfail ⊢
    cases hcb : hasCycleAux nodes (edgePairs edges ++ [(u, v)]) with
    | false => rw [hcb] at hfail; simp at hfail
    | true => simp

/-- Witness for C1 at the specified scenario: connecting 3→1 over
{1→2, 2→3} is rejected and the graph keeps exactly 2 edges. -/
theorem connect_appends_iff_acyclic_witness :
    (((onConnect chainNodes chainEdges "3" "1").2 = true ↔
      ¬ ∃ c, Relation.TransGen (EdgeStepP (edgePairs chainEdges ++ [("3", "1")])) c c) ∧
      ((onConnect chainNodes chainEdges "3" "1").2 = true →
        (onConnect chainNodes chainEdges "3" "1").1 = chainEdges ++ [connectionEdge "3" "1"]) ∧
      ((onConnect chainNodes chainEdges "3" "1").2 = false →
        (onConnect chainNodes chainEdges "3" "1").1 = chainEdges)) ∧
    (onConnect chainNodes chainEdges "3" "1").2 = false ∧
    (onConnect chainNodes chainEdges "3" "1").1.length = 2 :=
  ⟨connect_appends_iff_acyclic chainNodes chainEdges "3" "1" (by decide) (by decide)
    (by decide) (by decide), by decide, by decide⟩

/-- Claim C5: a proposed self-loop on a node id of the graph is always
reported as a cycle by `wouldCreateCycle` (no well-formedness of the other
edges needed). -/
theorem wouldCreateCycle_self (nodes : List FlowNode) (edges : List FlowEdge)
    (u : String) (hu : u ∈ nodeIds nodes) :
    wouldCreateCycle nodes edges u u = true := by
  unfold wouldCreateCycle
  rw [hasCycleAux_iff]
  refine ⟨u, hu, u, Relation.ReflTransGen.refl, Relation.TransGen.single ?_⟩
  unfold EdgeStepP
  exact List.mem_append_right _ (List.mem_singleton.2 rfl)

/-- Witness for C5 at a concrete graph. -/
theorem wouldCreateCycle_self_witness :
    wouldCreateCycle [demoNode "1"] [] "1" "1" = true :=
  wouldCreateCycle_self [demoNode "1"] [] "1" (by decide)

/-! ## The DAG validator (`useDAGValidation.ts`) -/

/-- The validation report: validity flag, ordered error strings, ordered
warning strings. -/
structure GraphValidation where
  isValid : Bool
  errors : List String
  warnings : List String
deriving DecidableEq

def minNodesWarning : String :=
  "Graph should have at least 2 nodes for meaningful connections"

def cycleError : String := "Graph contains cycles - DAG must be acyclic"

def selfRefError : String := "Self-referential edges are not allowed in a DAG"

def notConnectedWarning : String := "Some nodes are not connected to the graph"

def noConnectionsWarning : String := "No connections between nodes"

/-- `Set.add` on a JS `Set<string>` kept as an insertion-ordered list. -/
def setAdd (s : List String) (x : String) : List String :=
  if x ∈ s then s else s ++ [x]

/-- The set of node ids touched by at least one edge (`connectedNodes`). -/
def connectedNodeIds (edges : List FlowEdge) : List String :=
  edges.foldl (fun s e => setAdd (setAdd s e.source) e.target) []

/-- The body of `useDAGValidation`: minimum-size warning, cycle error,
self-loop error, connectivity warnings, in source order; validity is
emptiness of the error list. -/
def validateReport (nodes : List FlowNode) (edges : List FlowEdge) :
    GraphValidation :=
  let warnMin := if nodes.length < 2 then [minNodesWarning] else []
  let errCycle := if hasCycle nodes edges then [cycleError] else []
  let errSelf :=
    if 0 < (edges.filter (fun e => e.source == e.target)).length then
      [selfRefError] else []
  let warnConn :=
    if 1 < nodes.length then
      (if (connectedNodeIds edges).length < nodes.length ∧ 0 < edges.length then
        [notConnectedWarning] else []) ++
      (if edges.length = 0 then [noConnectionsWarning] else [])
    else []
  let errs := errCycle ++ errSelf
  ⟨errs.isEmpty, errs, warnMin ++ warnConn⟩

theorem validateReport_errors (nodes : List FlowNode) (edges : List FlowEdge) :
    (validateReport nodes edges).errors =
      (if hasCycle nodes edges then [cycleError] else []) ++
      (if 0 < (edges.filter (fun e => e.source == e.target)).length then
        [selfRefError] else []) :=
  rfl

/-- Claim C2: on a well-formed graph, the validator reports the cycle
error iff the graph has a directed cycle. -/
theorem validate_cycle_error_iff (nodes : List FlowNode) (edges : List FlowEdge)
    (wf : WellFormed nodes edges) :
    cycleError ∈ (validateReport nodes edges).errors ↔
      ∃ c, Relation.TransGen (EdgeStepP (edgePairs edges)) c c := by
  have hw := hasCycle_iff_wf nodes edges wf
  rw [validateReport_errors]
  cases hcb : hasCycle nodes edges with
  | true =>
    rw [hcb] at hw
    constructor
    · intro _; exact hw.1 rfl
    · intro _; simp
  | false =>
    rw [hcb] at hw
    constructor
    · intro hmem
      exfalso
      simp only [Bool.false_eq_true, if_false, List.nil_append] at hmem
      split at hmem
      · exact absurd hmem (by decide)
      · exact absurd hmem (by decide)
    · intro hex
      exact absurd (hw.2 hex) (by simp)

/-- Witness for C2 at the specified scenario {1,2} with edges
{1→2, 2→1}: the report is invalid with the cycle error present. -/
theorem validate_cycle_error_iff_witness :
    (cycleError ∈ (validateReport twoCycleNodes twoCycleEdges).errors ↔
      ∃ c, Relation.TransGen (EdgeStepP (edgePairs twoCycleEdges)) c c) ∧
    (validateReport twoCycleNodes twoCycleEdges).isValid = false ∧
    cycleError ∈ (validateReport twoCycleNodes twoCycleEdges).errors :=
  ⟨validate_cycle_error_iff twoCycleNodes twoCycleEdges (by decide), by decide,
    by decide⟩

/-- Graph with a directed cycle lying entirely on node ids absent from the
node collection. -/
def danglingNodes : List FlowNode := [demoNode "1", demoNode "2"]

def danglingEdges : List FlowEdge := [demoEdge "e1" "9" "10", demoEdge "e2" "10" "9"]

/-- Claim C10: the validator performs no dangling-reference check — a
graph whose edges reference only absent node ids validates with no
errors, although those edges form a directed cycle (the DFS outer loop
starts only from listed nodes and never reaches it). -/
theorem validate_skips_dangling_refs :
    (validateReport danglingNodes danglingEdges).isValid = true ∧
    (validateReport danglingNodes danglingEdges).errors = [] ∧
    (∃ e ∈ danglingEdges, e.source ∉ nodeIds danglingNodes ∧
      e.target ∉ nodeIds danglingNodes) ∧
    (∃ c, Relation.TransGen (EdgeStepP (edgePairs danglingEdges)) c c) := by
  refine ⟨by decide, by decide, by decide, "9", ?_⟩
  have h1 : EdgeStepP (edgePairs danglingEdges) "9" "10" := by decide
  have h2 : EdgeStepP (edgePairs danglingEdges) "10" "9" := by decide
  exact Relation.TransGen.head h1 (Relation.TransGen.single h2)

/-! ## Purity of the validator (`useMemo` caching) -/

/-- The `useMemo` cache state React keeps between renders: the previous
dependency values and the memoized report. -/
structure MemoCache where
  depsNodes : List FlowNode
  depsEdges : List FlowEdge
  value : GraphValidation
deriving DecidableEq

/-- `useDAGValidation(nodes, edges)` as rendered by React: return the
cached report when the dependencies match, else recompute the report. -/
def useDAGValidation (cache : Option MemoCache) (nodes : List FlowNode)
    (edges : List FlowEdge) : GraphValidation :=
  match cache with
  | none => validateReport nodes edges
  | some c =>
    if c.depsNodes = nodes ∧ c.depsEdges = edges then c.value
    else validateReport nodes edges

/-- React's memo invariant: a populated cache holds the report computed
from its own recorded dependencies. -/
def CacheConsistent : Option MemoCache → Prop
  | none => True
  | some c => c.value = validateReport c.depsNodes c.depsEdges

instance : ∀ c, Decidable (CacheConsistent c)
  | none => .isTrue trivial
  | some _ => by unfold CacheConsistent; infer_instance

/-- Claim C8: the validator is a pure, deterministic function of
(nodes, edges) — any two calls on identical collections, whatever the
call history (memo cache state), return the identical report, equal to
the recomputed one (same flag, same error order, same warning order). -/
theorem useDAGValidation_pure (cache cache' : Option MemoCache)
    (h : CacheConsistent cache) (h' : CacheConsistent cache')
    (nodes : List FlowNode) (edges : List FlowEdge) :
    useDAGValidation cache nodes edges = useDAGValidation cache' nodes edges ∧
    useDAGValidation cache nodes edges = validateReport nodes edges := by
  have key : ∀ c, CacheConsistent c →
      useDAGValidation c nodes edges = validateReport nodes edges := by
    intro c hc
    match c with
    | none => rfl
    | some c =>
      show (if c.depsNodes = nodes ∧ c.depsEdges = edges then c.value
        else validateReport nodes edges) = validateReport nodes edges
      split_ifs with heq
      · unfold CacheConsistent at hc
        rw [hc, heq.1, heq.2]
      · rfl
  exact ⟨(key cache h).trans (key cache' h').symm, key cache h⟩

/-- Witness for C8: a populated consistent cache and an empty cache give
the same report on the same input. -/
theorem useDAGValidation_pure_witness :
    (useDAGValidation (some ⟨[], [], validateReport [] []⟩) [demoNode "1"] [] =
      useDAGValidation none [demoNode "1"] []) ∧
    useDAGValidation (some ⟨[], [], validateReport [] []⟩) [demoNode "1"] [] =
      validateReport [demoNode "1"] [] :=
  useDAGValidation_pure (some ⟨[], [], validateReport [] []⟩) none (by decide)
    trivial [demoNode "1"] []

/-! ## Node deletion (the Delete/Backspace key handler) -/

/-- The delete branch of `handleKeyDown`: when something is selected,
`setNodes(prev.filter(n => !n.selected))` and
`setEdges(prev.filter(e => !e.selected))` — each collection is filtered by
its own selection flag only. -/
def deleteSelection (nodes : List FlowNode) (edges : List FlowEdge) :
    List FlowNode × List FlowEdge :=
  if 0 < (nodes.filter (fun n => n.selected)).length ∨
      0 < (edges.filter (fun e => e.selected)).length then
    (nodes.filter (fun n => ! n.selected), edges.filter (fun e => ! e.selected))
  else (nodes, edges)

/-- Node 1 selected for deletion; its incident edge 1→2 not selected. -/
def delNodes : List FlowNode := [⟨"1", "custom", 0, 0, "1", "1", true⟩, demoNode "2"]

def delEdges : List FlowEdge := [demoEdge "e1" "1" "2"]

/-- Claim C3 (behavior of the code at the failing input): deleting
selected node 1 keeps its unselected incident edge 1→2, whose source id
is now absent from the node collection — the delete handler does not
cascade to incident edges. -/
theorem deleteSelection_leaves_dangling :
    (deleteSelection delNodes delEdges).2 = [demoEdge "e1" "1" "2"] ∧
    ∃ e ∈ (deleteSelection delNodes delEdges).2,
      e.source ∉ nodeIds (deleteSelection delNodes delEdges).1 :=
  ⟨by decide, by decide⟩

/-! ## The layout engine

`getLayoutedElements` (src/utils/autoLayout.ts) is imported by
`DAGEditor.tsx` but its file is not among the repository's files; the
layer computation below is modelled from the spec (§4.4). -/

/-- The direct predecessors of `n`: sources of the edges entering `n`. -/
def preds (eps : List (String × String)) (n : String) : List String :=
  (eps.filter (fun p => p.2 == n)).map (fun p => p.1)

def listMax : List Nat → Nat
  | [] => 0
  | x :: xs => max x (listMax xs)

/-- Modelled from the spec: `getLayoutedElements` is missing from the
repository, and §4.4 defines a node's layer as one more than the maximum
layer of its direct predecessors, with nodes that have no incoming edges
at layer 0.  The recursion is bounded by a fuel parameter (the node
count suffices on an acyclic graph, proved below). -/
def layerF (eps : List (String × String)) : Nat → String → Nat
  | 0, _ => 0
  | Nat.succ f, n => listMax ((preds eps n).map (fun p => layerF eps f p + 1))

/-- The layer assigned to node id `n` by the layout. -/
def layerOf (nodes : List FlowNode) (edges : List FlowEdge) (n : String) : Nat :=
  layerF (edgePairs edges) nodes.length n

/-- Modelled from the spec: fixed vertical gap between layers. -/
def vGap : Int := 150

/-- Modelled from the spec: fixed horizontal gap within a layer. -/
def hGap : Int := 200

/-- The y-position assigned by the layout: proportional to the layer. -/
def layoutY (nodes : List FlowNode) (edges : List FlowEdge) (n : String) : Int :=
  80 + vGap * (layerOf nodes edges n : Int)

/-- The x-position assigned by the layout: the node's stable rank within
its layer. -/
def layoutX (nodes : List FlowNode) (edges : List FlowEdge) (n : String) : Int :=
  40 + hGap * (((nodeIds nodes).filter
    (fun m => layerOf nodes edges m == layerOf nodes edges n)).indexOf n : Int)

/-- `autoLayout` replaces every node position with the computed one and
touches nothing else. -/
def autoLayoutNodes (nodes : List FlowNode) (edges : List FlowEdge) :
    List FlowNode :=
  nodes.map (fun n =>
    { n with x := layoutX nodes edges n.id, y := layoutY nodes edges n.id })

theorem mem_preds {eps : List (String × String)} {p u : String} :
    p ∈ preds eps u ↔ (p, u) ∈ eps := by
  unfold preds
  simp only [List.mem_map, List.mem_filter, beq_iff_eq]
  constructor
  · rintro ⟨⟨p1, p2⟩, ⟨hmem, h1⟩, h2⟩
    simp only at h1 h2
    subst h1; subst h2; exact hmem
  · intro h
    exact ⟨(p, u), ⟨h, rfl⟩, rfl⟩

theorem mem_edgePairs {edges : List FlowEdge} {a b : String} :
    (a, b) ∈ edgePairs edges ↔ ∃ e ∈ edges, e.source = a ∧ e.target = b := by
  unfold edgePairs
  simp [Prod.ext_iff]

theorem listMax_ge {l : List Nat} {x : Nat} (hx : x ∈ l) : x ≤ listMax l := by
  induction l with
  | nil => simp at hx
  | cons y ys ih =>
    rw [listMax]
    rcases List.mem_cons.1 hx with h | h
    · subst h; exact Nat.le_max_left _ _
    · exact le_trans (ih h) (Nat.le_max_right _ _)

/-- A backwards chain of direct predecessors starting at `u`. -/
def PredChain (eps : List (String × String)) : String → List String → Prop
  | _, [] => True
  | u, p :: l => p ∈ preds eps u ∧ PredChain eps p l

/-- Every element of a predecessor chain reaches `u` by at least one
step. -/
theorem predChain_transGen (eps : List (String × String)) :
    ∀ l u x, PredChain eps u l → x ∈ l →
      Relation.TransGen (EdgeStepP eps) x u := by
  intro l
  induction l with
  | nil => intro u x _ hx; simp at hx
  | cons p l ih =>
    intro u x hc hx
    obtain ⟨hp, hrest⟩ := hc
    have hpu : EdgeStepP eps p u := mem_preds.1 hp
    rcases List.mem_cons.1 hx with h | h
    · subst h; exact Relation.TransGen.single hpu
    · exact (ih p x hrest h).tail hpu

/-- On an acyclic graph a predecessor chain never repeats a node. -/
theorem predChain_nodup (eps : List (String × String))
    (hacyc : ¬ ∃ c, Relation.TransGen (EdgeStepP eps) c c) :
    ∀ l u, PredChain eps u l → (u :: l).Nodup := by
  intro l
  induction l with
  | nil => intro u _; simp
  | cons p l ih =>
    intro u hc
    obtain ⟨hp, hrest⟩ := hc
    have hn := ih p hrest
    have hpu : EdgeStepP eps p u := mem_preds.1 hp
    refine List.nodup_cons.2 ⟨?_, hn⟩
    intro hu
    rcases List.mem_cons.1 hu with h | h
    · subst h; exact hacyc ⟨u, Relation.TransGen.single hpu⟩
    · exact hacyc ⟨u, (predChain_transGen eps l p u hrest h).tail hpu⟩

/-- Predecessor chain elements of a well-formed graph are node ids. -/
theorem predChain_mem_ids (nodes : List FlowNode) (edges : List FlowEdge)
    (wf : WellFormed nodes edges) :
    ∀ l u, PredChain (edgePairs edges) u l → ∀ x ∈ l, x ∈ nodeIds nodes := by
  intro l
  induction l with
  | nil => intro u _ x hx; simp at hx
  | cons p l ih =>
    intro u hc x hx
    obtain ⟨hp, hrest⟩ := hc
    rcases List.mem_cons.1 hx with h | h
    · subst h
      obtain ⟨e, he, h1, _⟩ := mem_edgePairs.1 (mem_preds.1 hp)
      exact h1 ▸ (wf e he).1
    · exact ih p hrest x h

/-- On a well-formed acyclic graph, a predecessor chain from a node id is
shorter than the node count. -/
theorem predChain_bound (nodes : List FlowNode) (edges : List FlowEdge)
    (wf : WellFormed nodes edges)
    (hacyc : ¬ ∃ c, Relation.TransGen (EdgeStepP (edgePairs edges)) c c)
    (u : String) (hu : u ∈ nodeIds nodes) :
    ∀ l, PredChain (edgePairs edges) u l → l.length + 1 ≤ nodes.length := by
  intro l hc
  have hnodup := predChain_nodup (edgePairs edges) hacyc l u hc
  have hsub : (u :: l).toFinset ⊆ (nodeIds nodes).toFinset := by
    rw [Finset.subset_iff]
    intro x hx
    rw [List.mem_toFinset] at hx ⊢
    rcases List.mem_cons.1 hx with h | h
    · exact h ▸ hu
    · exact predChain_mem_ids nodes edges wf l u hc x h
  have h1 : (u :: l).toFinset.card = l.length + 1 := by
    rw [List.toFinset_card_of_nodup hnodup]
    simp
  have h2 := Finset.card_le_card hsub
  have h3 := List.toFinset_card_le (nodeIds nodes)
  have h4 : (nodeIds nodes).length = nodes.length := by simp [nodeIds]
  omega

/-- The layer function is stable once the fuel exceeds every predecessor
chain length. -/
theorem layerF_stab (eps : List (String × String)) :
    ∀ (k : Nat) (u : String), (∀ l, PredChain eps u l → l.length ≤ k) →
      ∀ f, k ≤ f → layerF eps f u = layerF eps k u := by
  intro k
  induction k with
  | zero =>
    intro u hb f _
    have hpred : preds eps u = [] := by
      rw [List.eq_nil_iff_forall_not_mem]
      intro p hp
      have := hb [p] ⟨hp, trivial⟩
      simp at this
    cases f with
    | zero => rfl
    | succ g =>
      have h1 : layerF eps (g + 1) u =
          listMax ((preds eps u).map (fun p => layerF eps g p + 1)) := rfl
      rw [h1, hpred]
      rfl
  | succ j ih =>
    intro u hb f hf
    obtain ⟨g, rfl⟩ : ∃ g, f = g + 1 := ⟨f - 1, by omega⟩
    have hL : layerF eps (g + 1) u =
        listMax ((preds eps u).map (fun p => layerF eps g p + 1)) := rfl
    have hR : layerF eps (j + 1) u =
        listMax ((preds eps u).map (fun p => layerF eps j p + 1)) := rfl
    rw [hL, hR]
    congr 1
    apply List.map_congr_left
    intro p hp
    have hbp : ∀ l, PredChain eps p l → l.length ≤ j := by
      intro l hl
      have := hb (p :: l) ⟨hp, hl⟩
      simpa using this
    rw [ih p hbp g (by omega)]
/-- Claim C9 (layout modelled from the spec — the autoLayout source file
is absent from the repository): on a well-formed graph that the cycle
detector clears, the computed layer satisfies the spec's recurrence
(one more than the maximum layer of the direct predecessors), nodes
without incoming edges sit at layer 0, and along every directed path the
layer strictly increases, so the assigned y-position strictly increases
(in particular it never decreases). -/
theorem autoLayout_layer_monotone (nodes : List FlowNode) (edges : List FlowEdge)
    (wf : WellFormed nodes edges) (acyc : hasCycle nodes edges = false) :
    (∀ n, preds (edgePairs edges) n = [] → layerOf nodes edges n = 0) ∧
    (∀ n, layerOf nodes edges n =
      listMax ((preds (edgePairs edges) n).map
        (fun p => layerOf nodes edges p + 1))) ∧
    (∀ u v, Relation.TransGen (EdgeStepP (edgePairs edges)) u v →
      layerOf nodes edges u < layerOf nodes edges v ∧
      layoutY nodes edges u < layoutY nodes edges v) := by
  have hacyc : ¬ ∃ c, Relation.TransGen (EdgeStepP (edgePairs edges)) c c := by
    intro hex
    have h := (hasCycle_iff_wf nodes edges wf).2 hex
    rw [acyc] at h
    exact absurd h (by simp)
  have hzero : ∀ n, preds (edgePairs edges) n = [] → layerOf nodes edges n = 0 := by
    intro n hp
    unfold layerOf
    cases hN : nodes.length with
    | zero => rfl
    | succ M =>
      have hL : layerF (edgePairs edges) (M + 1) n =
          listMax ((preds (edgePairs edges) n).map
            (fun p => layerF (edgePairs edges) M p + 1)) := rfl
      rw [hL, hp]
      rfl
  have hedge : ∀ a b, EdgeStepP (edgePairs edges) a b →
      layerOf nodes edges a < layerOf nodes edges b := by
    intro a b hab
    obtain ⟨e, he, h1, _⟩ := mem_edgePairs.1 hab
    have ha : a ∈ nodeIds nodes := h1 ▸ (wf e he).1
    have hmem : a ∈ preds (edgePairs edges) b := mem_preds.2 hab
    have hNpos : 0 < nodes.length := by
      rcases nodes with _ | ⟨n0, ns⟩
      · simp [nodeIds] at ha
      · simp
    obtain ⟨M, hM⟩ : ∃ M, nodes.length = M + 1 := ⟨nodes.length - 1, by omega⟩
    have hbound : ∀ l, PredChain (edgePairs edges) a l → l.length ≤ M := by
      intro l hl
      have := predChain_bound nodes edges wf hacyc a ha l hl
      omega
    have hstab := layerF_stab (edgePairs edges) M a hbound (M + 1) (by omega)
    unfold layerOf
    rw [hM]
    have hL : layerF (edgePairs edges) (M + 1) b =
        listMax ((preds (edgePairs edges) b).map
          (fun p => layerF (edgePairs edges) M p + 1)) := rfl
    rw [hL, hstab]
    have hmm : layerF (edgePairs edges) M a + 1 ∈
        (preds (edgePairs edges) b).map
          (fun p => layerF (edgePairs edges) M p + 1) :=
      List.mem_map.2 ⟨a, hmem, rfl⟩
    have := listMax_ge hmm
    omega
  have hpath : ∀ u v, Relation.TransGen (EdgeStepP (edgePairs edges)) u v →
      layerOf nodes edges u < layerOf nodes edges v := by
    intro u v h
    induction h with
    | single hstep => exact hedge _ _ hstep
    | tail _ hstep ih => exact lt_trans ih (hedge _ _ hstep)
  refine ⟨hzero, ?_, fun u v h => ⟨hpath u v h, ?_⟩⟩
  · intro n
    unfold layerOf
    cases hN : nodes.length with
    | zero =>
      have hnodes : nodes = [] := List.length_eq_zero.1 hN
      have hedges : edges = [] := by
        cases hE : edges with
        | nil => rfl
        | cons e es =>
          have := (wf e (hE ▸ List.mem_cons_self e es)).1
          rw [hnodes] at this
          simp [nodeIds] at this
      subst hedges
      have hp : preds (edgePairs ([] : List FlowEdge)) n = [] := rfl
      rw [hp]
      rfl
    | succ M =>
      have hL : layerF (edgePairs edges) (M + 1) n =
          listMax ((preds (edgePairs edges) n).map
            (fun p => layerF (edgePairs edges) M p + 1)) := rfl
      rw [hL]
      congr 1
      apply List.map_congr_left
      intro p hp
      obtain ⟨e, he, h1, _⟩ := mem_edgePairs.1 (mem_preds.1 hp)
      have hpid : p ∈ nodeIds nodes := h1 ▸ (wf e he).1
      have hbound : ∀ l, PredChain (edgePairs edges) p l → l.length ≤ M := by
        intro l hl
        have := predChain_bound nodes edges wf hacyc p hpid l hl
        omega
      rw [layerF_stab (edgePairs edges) M p hbound (M + 1) (by omega)]
  · have := hpath u v h
    unfold layoutY vGap
    omega

/-- Witness for C9 at the two-node graph 1→2: well-formed, no cycle. -/
theorem autoLayout_layer_monotone_witness :
    (∀ n, preds (edgePairs [demoEdge "e1" "1" "2"]) n = [] →
      layerOf [demoNode "1", demoNode "2"] [demoEdge "e1" "1" "2"] n = 0) ∧
    (∀ n, layerOf [demoNode "1", demoNode "2"] [demoEdge "e1" "1" "2"] n =
      listMax ((preds (edgePairs [demoEdge "e1" "1" "2"]) n).map
        (fun p => layerOf [demoNode "1", demoNode "2"] [demoEdge "e1" "1" "2"] p + 1))) ∧
    (∀ u v, Relation.TransGen (EdgeStepP (edgePairs [demoEdge "e1" "1" "2"])) u v →
      layerOf [demoNode "1", demoNode "2"] [demoEdge "e1" "1" "2"] u <
        layerOf [demoNode "1", demoNode "2"] [demoEdge "e1" "1" "2"] v ∧
      layoutY [demoNode "1", demoNode "2"] [demoEdge "e1" "1" "2"] u <
        layoutY [demoNode "1", demoNode "2"] [demoEdge "e1" "1" "2"] v) :=
  autoLayout_layer_monotone [demoNode "1", demoNode "2"] [demoEdge "e1" "1" "2"]
    (by decide) (by decide)

/-! ## Import and export (`onExport` / `onImport` in `DAGEditor.tsx`)

`onImport` parses the selected file with `JSON.parse` and checks
`if (data.nodes && data.edges)` — JavaScript truthiness of the two fields,
not their shape — before replacing the node and edge state with the raw
parsed values.  We model parsed JSON values and that truthiness check
directly. -/

/-- A parsed JSON value.  Numbers carry the integer values used by this
code path. -/
inductive Json where
  | null : Json
  | bool (b : Bool) : Json
  | num (n : Int) : Json
  | str (s : String) : Json
  | arr (xs : List Json) : Json
  | obj (fields : List (String × Json)) : Json

/-- Property access `data.f`: first matching object field, else
`undefined` (`none`). -/
def Json.getField : Json → String → Option Json
  | .obj fields, f =>
    match fields.find? (fun p => p.1 == f) with
    | some p => some p.2
    | none => none
  | _, _ => none

/-- JavaScript truthiness of a possibly-undefined value: `undefined`,
`null`, `false`, `0` and `""` are falsy; everything else (including `[]`
and `{}`) is truthy. -/
def truthy : Option Json → Bool
  | none => false
  | some .null => false
  | some (.bool b) => b
  | some (.num n) => n != 0
  | some (.str s) => s ≠ ""
  | some (.arr _) => true
  | some (.obj _) => true

/-- Outcome of `onImport` on parsed data: either nothing happens (the
`if` guard fails — silently, with no error signal), or `setNodes` and
`setEdges` replace the graph state with the raw field values. -/
inductive ImportResult where
  | rejected : ImportResult
  | replaced (nodesJ edgesJ : Json) : ImportResult

/-- The state the import acts on: the raw values held in the `nodes` and
`edges` React state slots. -/
structure JState where
  nodesJ : Json
  edgesJ : Json

/-- `onImport` after a successful `JSON.parse`: the truthiness guard
`if (data.nodes && data.edges)`, then wholesale replacement. -/
def onImport (data : Json) : ImportResult :=
  match data.getField "nodes", data.getField "edges" with
  | some nj, some ej =>
    if truthy (some nj) && truthy (some ej) then .replaced nj ej else .rejected
  | _, _ => .rejected

def applyImport : ImportResult → JState → JState
  | .rejected, st => st
  | .replaced nj ej, _ => ⟨nj, ej⟩

/-- Serialization of a node, as `JSON.stringify` lays out its fields. -/
def nodeToJson (n : FlowNode) : Json :=
  .obj [("id", .str n.id), ("type", .str n.type),
    ("position", .obj [("x", .num n.x), ("y", .num n.y)]),
    ("data", .obj [("label", .str n.label), ("id", .str n.dataId)]),
    ("selected", .bool n.selected)]

def edgeToJson (e : FlowEdge) : Json :=
  .obj [("id", .str e.id), ("source", .str e.source), ("target", .str e.target),
    ("selected", .bool e.selected)]

/-- `onExport`: the serialized object `{nodes, edges, graphName,
timestamp}`. -/
def exportTo (nodes : List FlowNode) (edges : List FlowEdge)
    (graphName timestamp : String) : Json :=
  .obj [("nodes", .arr (nodes.map nodeToJson)),
    ("edges", .arr (edges.map edgeToJson)),
    ("graphName", .str graphName), ("timestamp", .str timestamp)]

/-- Reading a serialized node back into its record, when the shape
matches. -/
def nodeFromJson : Json → Option FlowNode
  | .obj [("id", .str i), ("type", .str t),
      ("position", .obj [("x", .num x), ("y", .num y)]),
      ("data", .obj [("label", .str lb), ("id", .str di)]),
      ("selected", .bool s)] => some ⟨i, t, x, y, lb, di, s⟩
  | _ => none

def edgeFromJson : Json → Option FlowEdge
  | .obj [("id", .str i), ("source", .str s), ("target", .str t),
      ("selected", .bool sel)] => some ⟨i, s, t, sel⟩
  | _ => none

def decodeNodes : Json → Option (List FlowNode)
  | .arr xs => xs.mapM nodeFromJson
  | _ => none

def decodeEdges : Json → Option (List FlowEdge)
  | .arr xs => xs.mapM edgeFromJson
  | _ => none

theorem decodeNodes_encode (nodes : List FlowNode) :
    decodeNodes (.arr (nodes.map nodeToJson)) = some nodes := by
  unfold decodeNodes
  induction nodes with
  | nil => rfl
  | cons n rest ih =>
    simp only [List.map_cons, List.mapM_cons]
    have hn : nodeFromJson (nodeToJson n) = some n := rfl
    rw [hn]
    simp only [Option.bind_eq_bind, Option.some_bind] at ih ⊢
    rw [ih]
    rfl

theorem decodeEdges_encode (edges : List FlowEdge) :
    decodeEdges (.arr (edges.map edgeToJson)) = some edges := by
  unfold decodeEdges
  induction edges with
  | nil => rfl
  | cons e rest ih =>
    simp only [List.map_cons, List.mapM_cons]
    have he : edgeFromJson (edgeToJson e) = some e := rfl
    rw [he]
    simp only [Option.bind_eq_bind, Option.some_bind] at ih ⊢
    rw [ih]
    rfl

/-- Claim C6: importing an export restores the graph: the import is
accepted, the state receives exactly the serialized node and edge arrays,
and those decode back to the original node ids, labels, positions and
edges. -/
theorem import_export_roundtrip (nodes : List FlowNode) (edges : List FlowEdge)
    (graphName timestamp : String) :
    onImport (exportTo nodes edges graphName timestamp) =
      .replaced (.arr (nodes.map nodeToJson)) (.arr (edges.map edgeToJson)) ∧
    decodeNodes (.arr (nodes.map nodeToJson)) = some nodes ∧
    decodeEdges (.arr (edges.map edgeToJson)) = some edges :=
  ⟨rfl, decodeNodes_encode nodes, decodeEdges_encode edges⟩

/-- The import payload of the specified scenario:
`{"nodes":[],"edges":"not-an-array"}`. -/
def badImportJson : Json :=
  .obj [("nodes", .arr []), ("edges", .str "not-an-array")]

/-- A current graph state holding one node and one edge. -/
def oneEdgeState : JState :=
  ⟨.arr [nodeToJson (demoNode "1")], .arr [edgeToJson (demoEdge "e1" "1" "1")]⟩

/-- Counterexample to C4: `{"nodes":[],"edges":"not-an-array"}` is NOT
rejected — `[]` and `"not-an-array"` are both truthy, so the guard passes
and the state is mutated, the edge slot now holding the raw string. -/
theorem import_not_array_accepted :
    onImport badImportJson = .replaced (.arr []) (.str "not-an-array") ∧
    (applyImport (onImport badImportJson) oneEdgeState).edgesJ =
      .str "not-an-array" ∧
    oneEdgeState.edgesJ = .arr [edgeToJson (demoEdge "e1" "1" "1")] ∧
    (.str "not-an-array" : Json) ≠ .arr [edgeToJson (demoEdge "e1" "1" "1")] :=
  ⟨rfl, rfl, rfl, fun h => Json.noConfusion h⟩

/-- Amended C4: the import guard checks truthiness, not array shape —
`onImport` leaves the state untouched iff the `nodes` or `edges` field is
absent or falsy (`null`, `false`, `0`, `""`); whenever both are truthy the
state is replaced wholesale by the raw field values, arrays or not. -/
theorem import_rejects_iff_falsy (data : Json) :
    (onImport data = .rejected ↔
      ¬ (truthy (data.getField "nodes") = true ∧
         truthy (data.getField "edges") = true)) ∧
    (∀ nj ej, data.getField "nodes" = some nj → data.getField "edges" = some ej →
      truthy (some nj) = true → truthy (some ej) = true →
      onImport data = .replaced nj ej) := by
  constructor
  · unfold onImport
    cases hn : data.getField "nodes" with
    | none =>
      constructor
      · intro _
        simp [truthy]
      · intro _
        cases data.getField "edges" <;> rfl
    | some nj =>
      cases he : data.getField "edges" with
      | none =>
        constructor
        · intro _
          simp [truthy]
        · intro _
          rfl
      | some ej =>
        constructor
        · intro hrej hand
          have hrej' : (if (truthy (some nj) && truthy (some ej)) = true then
              ImportResult.replaced nj ej else ImportResult.rejected) =
              ImportResult.rejected := hrej
          rw [if_pos (by rw [hand.1, hand.2]; rfl)] at hrej'
          exact ImportResult.noConfusion hrej'
        · intro hneg
          show (if (truthy (some nj) && truthy (some ej)) = true then
            ImportResult.replaced nj ej else ImportResult.rejected) =
            ImportResult.rejected
          rw [if_neg (by simpa using hneg)]
  · intro nj ej hn he h1 h2
    unfold onImport
    rw [hn, he]
    show (if (truthy (some nj) && truthy (some ej)) = true then
      ImportResult.replaced nj ej else ImportResult.rejected) =
      ImportResult.replaced nj ej
    rw [if_pos (by rw [h1, h2]; rfl)]

/-- Witness for the amended C4: the full export of the one-node graph is
accepted, and a payload missing the `edges` field is rejected. -/
theorem import_rejects_iff_falsy_witness :
    onImport (.obj [("nodes", .arr []), ("edges", .arr [])]) =
      .replaced (.arr []) (.arr []) :=
  (import_rejects_iff_falsy (.obj [("nodes", .arr []), ("edges", .arr [])])).2
    (.arr []) (.arr []) rfl rfl rfl rfl

/-! ## The edit session and the node id counter

`onAddNode` stamps each new node with `nodeIdCounter.toString()` and
increments the counter; `onClear` resets nodes, edges and the counter
(back to 1).  `Nat.repr` is the decimal print `toString` performs; its
injectivity is proved below so distinct counters give distinct ids. -/

/-- The big-endian decimal digits `Nat.toDigitsCore` pushes. -/
def decDigits (n : Nat) : List Nat :=
  if h : n / 10 = 0 then [n % 10] else decDigits (n / 10) ++ [n % 10]
decreasing_by
  have h10 : 10 ≤ n := by
    by_contra hlt
    exact h (Nat.div_eq_of_lt (by omega))
  exact Nat.div_lt_self (by omega) (by omega)

theorem toDigitsCore_eq_decDigits :
    ∀ (fuel n : Nat) (acc : List Char), n < fuel →
      Nat.toDigitsCore 10 fuel n acc = (decDigits n).map Nat.digitChar ++ acc := by
  intro fuel
  induction fuel with
  | zero => intro n acc h; exact absurd h (Nat.not_lt_zero n)
  | succ f ih =>
    intro n acc h
    by_cases h0 : n / 10 = 0
    · have hstep : Nat.toDigitsCore 10 (f + 1) n acc =
          Nat.digitChar (n % 10) :: acc := by
        rw [Nat.toDigitsCore]
        simp [h0]
      rw [hstep, decDigits, dif_pos h0]
      rfl
    · have h10 : 10 ≤ n := by
        by_contra hlt
        exact h0 (Nat.div_eq_of_lt (by omega))
      have hn'lt : n / 10 < f := by
        have := Nat.div_lt_self (show 0 < n by omega) (show 1 < 10 by omega)
        omega
      have hstep : Nat.toDigitsCore 10 (f + 1) n acc =
          Nat.toDigitsCore 10 f (n / 10) (Nat.digitChar (n % 10) :: acc) := by
        rw [Nat.toDigitsCore]
        simp [h0]
      have hbed : decDigits n = decDigits (n / 10) ++ [n % 10] := by
        conv_lhs => rw [decDigits]
        rw [dif_neg h0]
      rw [hstep, ih (n / 10) _ hn'lt, hbed]
      simp

/-- The number a big-endian digit list denotes. -/
def digitsVal (l : List Nat) : Nat := l.foldl (fun a d => a * 10 + d) 0

theorem digitsVal_append (l : List Nat) (d : Nat) :
    digitsVal (l ++ [d]) = digitsVal l * 10 + d := by
  unfold digitsVal
  rw [List.foldl_append]
  rfl

theorem digitsVal_decDigits : ∀ n, digitsVal (decDigits n) = n := by
  intro n
  induction n using Nat.strong_induction_on with
  | _ n ih =>
    rw [decDigits]
    by_cases h0 : n / 10 = 0
    · rw [dif_pos h0]
      have h10 : n < 10 := by
        by_contra hge
        have h1 : 10 / 10 ≤ n / 10 := Nat.div_le_div_right (by omega)
        omega
      show 0 * 10 + n % 10 = n
      rw [Nat.mod_eq_of_lt h10]
      omega
    · rw [dif_neg h0]
      have h10 : 10 ≤ n := by
        by_contra hlt
        exact h0 (Nat.div_eq_of_lt (by omega))
      rw [digitsVal_append, ih (n / 10) (Nat.div_lt_self (by omega) (by omega))]
      have := Nat.div_add_mod n 10
      omega

theorem decDigits_lt_ten : ∀ n, ∀ d ∈ decDigits n, d < 10 := by
  intro n
  induction n using Nat.strong_induction_on with
  | _ n ih =>
    rw [decDigits]
    by_cases h0 : n / 10 = 0
    · rw [dif_pos h0]
      intro d hd
      rw [List.mem_singleton] at hd
      subst hd
      exact Nat.mod_lt _ (by omega)
    · rw [dif_neg h0]
      have h10 : 10 ≤ n := by
        by_contra hlt
        exact h0 (Nat.div_eq_of_lt (by omega))
      intro d hd
      rcases List.mem_append.1 hd with hmem | hmem
      · exact ih (n / 10) (Nat.div_lt_self (by omega) (by omega)) d hmem
      · rw [List.mem_singleton] at hmem
        subst hmem
        exact Nat.mod_lt _ (by omega)

theorem digitChar_inj_lt :
    ∀ d1, d1 < 10 → ∀ d2, d2 < 10 →
      Nat.digitChar d1 = Nat.digitChar d2 → d1 = d2 := by
  decide

theorem map_digitChar_inj : ∀ l1 l2 : List Nat, (∀ d ∈ l1, d < 10) →
    (∀ d ∈ l2, d < 10) → l1.map Nat.digitChar = l2.map Nat.digitChar →
    l1 = l2 := by
  intro l1
  induction l1 with
  | nil =>
    intro l2 _ _ h
    cases l2 with
    | nil => rfl
    | cons d2 l2' => simp at h
  | cons d l ih =>
    intro l2 h1 h2 h
    cases l2 with
    | nil => simp at h
    | cons d2 l2' =>
      simp only [List.map_cons, List.cons.injEq] at h
      have hd := digitChar_inj_lt d (h1 d (List.mem_cons_self _ _)) d2
        (h2 d2 (List.mem_cons_self _ _)) h.1
      rw [hd, ih l2' (fun x hx => h1 x (List.mem_cons_of_mem _ hx))
        (fun x hx => h2 x (List.mem_cons_of_mem _ hx)) h.2]

/-- The decimal print of the id counter is injective: distinct counter
values give distinct node ids. -/
theorem natRepr_inj {m n : Nat} (h : Nat.repr m = Nat.repr n) : m = n := by
  have hm : Nat.repr m = ((decDigits m).map Nat.digitChar).asString := by
    unfold Nat.repr Nat.toDigits
    rw [toDigitsCore_eq_decDigits (m + 1) m [] (by omega), List.append_nil]
  have hn : Nat.repr n = ((decDigits n).map Nat.digitChar).asString := by
    unfold Nat.repr Nat.toDigits
    rw [toDigitsCore_eq_decDigits (n + 1) n [] (by omega), List.append_nil]
  rw [hm, hn] at h
  have hl : (decDigits m).map Nat.digitChar = (decDigits n).map Nat.digitChar := by
    have := congrArg String.data h
    simpa [List.asString] using this
  have hb := map_digitChar_inj _ _ (decDigits_lt_ten m) (decDigits_lt_ten n) hl
  calc m = digitsVal (decDigits m) := (digitsVal_decDigits m).symm
    _ = digitsVal (decDigits n) := by rw [hb]
    _ = n := digitsVal_decDigits n

/-- A user intent sent to the edit session. -/
inductive SessionOp where
  | addNode (label : String) (px py : Int) : SessionOp
  | deleteSel : SessionOp
  | connectOp (sourceId targetId : String) : SessionOp
  | autoLayoutOp : SessionOp
  | clearOp : SessionOp
deriving DecidableEq

/-- The editor state the `DAGEditor` component holds. -/
structure EditorState where
  nodes : List FlowNode
  edges : List FlowEdge
  nodeIdCounter : Nat
deriving DecidableEq

/-- A fresh session: empty graph, counter at 1. -/
def initialState : EditorState := ⟨[], [], 1⟩

/-- One user intent applied to the session state, per the `DAGEditor.tsx`
callbacks: `onAddNode` stamps the node with `nodeIdCounter.toString()`
(the random position draw is supplied as the op's argument) and
increments the counter; `onClear` resets everything, counter included. -/
def sessionStep (st : EditorState) : SessionOp → EditorState
  | .addNode label px py =>
    { st with
      nodes := st.nodes ++ [⟨Nat.repr st.nodeIdCounter, "custom", px, py, label,
        Nat.repr st.nodeIdCounter, false⟩],
      nodeIdCounter := st.nodeIdCounter + 1 }
  | .deleteSel =>
    { st with
      nodes := (deleteSelection st.nodes st.edges).1,
      edges := (deleteSelection st.nodes st.edges).2 }
  | .connectOp u v => { st with edges := (onConnect st.nodes st.edges u v).1 }
  | .autoLayoutOp => { st with nodes := autoLayoutNodes st.nodes st.edges }
  | .clearOp => ⟨[], [], 1⟩

/-- The node ids allocated by the `addNode` calls of an op sequence, in
order. -/
def allocatedIds (st : EditorState) : List SessionOp → List String
  | [] => []
  | op :: ops =>
    (match op with
     | .addNode _ _ _ => [Nat.repr st.nodeIdCounter]
     | _ => []) ++ allocatedIds (sessionStep st op) ops

/-- Counterexample to C7 as stated: `clear` resets the counter to 1, so
the session [addNode, clear, addNode] allocates the id "1" twice — ids
ARE reused after a clear. -/
theorem counter_reused_after_clear :
    allocatedIds initialState
      [SessionOp.addNode "a" 0 0, SessionOp.clearOp, SessionOp.addNode "b" 0 0] =
      ["1", "1"] ∧
    ¬ (allocatedIds initialState
      [SessionOp.addNode "a" 0 0, SessionOp.clearOp,
        SessionOp.addNode "b" 0 0]).Nodup :=
  ⟨by decide, by decide⟩

theorem sessionStep_counter_le (st : EditorState) (op : SessionOp)
    (hop : op ≠ SessionOp.clearOp) :
    st.nodeIdCounter ≤ (sessionStep st op).nodeIdCounter := by
  cases op with
  | addNode label px py => exact Nat.le_succ _
  | deleteSel => exact le_refl _
  | connectOp u v => exact le_refl _
  | autoLayoutOp => exact le_refl _
  | clearOp => exact absurd rfl hop

/-- Freshness invariant: without `clear`, allocated ids are pairwise
distinct and all printed from counters at or above the current one. -/
theorem allocatedIds_fresh : ∀ (ops : List SessionOp) (st : EditorState),
    SessionOp.clearOp ∉ ops →
    (allocatedIds st ops).Nodup ∧
    (∀ s ∈ allocatedIds st ops, ∃ k, st.nodeIdCounter ≤ k ∧ s = Nat.repr k) := by
  intro ops
  induction ops with
  | nil => intro st _; exact ⟨List.nodup_nil, by intro s hs; simp [allocatedIds] at hs⟩
  | cons op rest ih =>
    intro st hnc
    have hop : op ≠ SessionOp.clearOp := fun h => hnc (h ▸ List.mem_cons_self _ _)
    have hnc' : SessionOp.clearOp ∉ rest := fun h => hnc (List.mem_cons_of_mem _ h)
    obtain ⟨hnodup, hids⟩ := ih (sessionStep st op) hnc'
    cases op with
    | addNode label px py =>
      have heq : allocatedIds st (SessionOp.addNode label px py :: rest) =
          Nat.repr st.nodeIdCounter ::
            allocatedIds (sessionStep st (SessionOp.addNode label px py)) rest := rfl
      rw [heq]
      have hcnt1 : (sessionStep st (SessionOp.addNode label px py)).nodeIdCounter =
          st.nodeIdCounter + 1 := rfl
      constructor
      · refine List.nodup_cons.2 ⟨?_, hnodup⟩
        intro hmem
        obtain ⟨k, hk, hs⟩ := hids _ hmem
        rw [hcnt1] at hk
        have : st.nodeIdCounter = k := natRepr_inj hs
        omega
      · intro s hs
        rcases List.mem_cons.1 hs with h | h
        · exact ⟨st.nodeIdCounter, le_refl _, h⟩
        · obtain ⟨k, hk, hsk⟩ := hids s h
          rw [hcnt1] at hk
          exact ⟨k, by omega, hsk⟩
    | deleteSel => exact ⟨hnodup, fun s hs => hids s hs⟩
    | connectOp u v => exact ⟨hnodup, fun s hs => hids s hs⟩
    | autoLayoutOp => exact ⟨hnodup, fun s hs => hids s hs⟩
    | clearOp => exact absurd rfl hop

/-- Amended C7: across any session op sequence without `clear` (addNode,
deleteSelection, connect, autoLayout in any order), every `addNode`
allocates an id distinct from every id previously allocated — the counter
only grows and ids are its decimal prints.  `clear`, by contrast, resets
the counter to 1 and permits reuse. -/
theorem counter_fresh_without_clear (ops : List SessionOp)
    (hnc : SessionOp.clearOp ∉ ops) :
    (allocatedIds initialState ops).Nodup :=
  (allocatedIds_fresh ops initialState hnc).1

/-- Witness for the amended C7 on a mixed clear-free session. -/
theorem counter_fresh_without_clear_witness :
    (allocatedIds initialState
      [SessionOp.addNode "a" 0 0, SessionOp.deleteSel,
        SessionOp.addNode "b" 0 0, SessionOp.connectOp "1" "3",
        SessionOp.autoLayoutOp, SessionOp.addNode "c" 0 0]).Nodup :=
  counter_fresh_without_clear _ (by decide)

end VisualDag
